import Mathlib

/-!
Verification development for the FuzzyCache library (effect-blackfriday).

The library is a fuzzy result-caching layer: a matcher scores cached entries
against a requested parameter set under per-field fuzzy rules (ExactURL,
MoreIsBetter, CosineSimilarity, or exact equality), an embedding memoizer
caches (text, model) → vector lookups, an entry store keeps append-only
per-name entry lists, and an orchestrator (withCaching / withCachingMeta)
wraps computation functions with lookup-or-compute-and-store behavior.

The shallow embedding below mirrors the TypeScript sources:
  - src/fuzzy-cache/match.ts      (normalizeUrl, cosineSimilarity, scoreEntry, matchBestEntry)
  - src/fuzzy-cache/embeddings.ts (makeEmbeddingsService / embed)
  - src/fuzzy-cache/store.ts      (getAll, put)
  - src/fuzzy-cache/service.ts    (withCaching, withCachingMeta; the same code
    appears in both the FuzzyCacheService class and makeFuzzyCacheLayer)

Modelling conventions:
  - JS numbers (parameter values, timestamps, thresholds, embedding
    components) are modelled as rationals ℚ; derived similarity values and
    scores, which involve square roots, live in ℝ.
  - Effect values are modelled by their outcomes: a fallible effect is a
    value of `Except` (typed error channel) or `Exit` (success / failure
    cause); state held in Refs (the entry store, the embedding cache) is
    passed explicitly.
  - Whether the underlying wrapped function (resp. the raw embedding
    provider) was invoked during a call is exposed as an explicit `invoked`
    flag so that "invokes at most once" properties can be stated.
-/

namespace FuzzyCache

/-- Association-list lookup with value-typed keys; models JS object property
access, `Map.get` and Effect `HashMap.get` (all keyed by value equality). -/
def alookup {κ β : Type} [DecidableEq κ] : List (κ × β) → κ → Option β
  | [], _ => none
  | (k, v) :: rest, key => if key = k then some v else alookup rest key

/-- Association-list update-or-insert; models `Map.set` / `HashMap.set`. -/
def aset {κ β : Type} [DecidableEq κ] : List (κ × β) → κ → β → List (κ × β)
  | [], key, v => [(key, v)]
  | (k, w) :: rest, key, v =>
    if key = k then (key, v) :: rest else (k, w) :: aset rest key v

/-- A primitive JS parameter value: a string or a number (number as ℚ). -/
inductive Value : Type where
  | str (s : String)
  | num (q : ℚ)
deriving DecidableEq

/-- A parameter set: a JS object, i.e. an ordered association list from field
names to values (field order is the object's key iteration order). -/
abbrev Params : Type := List (String × Value)

/-- A fuzzy field specification (types.ts: CosineSimilaritySpec, ExactURLSpec,
MoreIsBetterSpec). The optional `excludeHash` of ExactURLSpec is a Bool with
`false` standing for the JS `undefined` default. -/
inductive FieldSpec : Type where
  | ExactURL (excludeHash : Bool)
  | MoreIsBetter
  | CosineSimilarity (threshold : ℚ) (model : String)
deriving DecidableEq

/-- FuzzyParamsSpec from types.ts: a partial map from field names to fuzzy
field specifications. -/
abbrev FuzzyParamsSpec : Type := List (String × FieldSpec)

/-- JS String(v) coercion on a parameter value (only string values are
exercised by CosineSimilarity fields under the library's typing). -/
def valueText : Value → String
  | .str s => s
  | .num q => toString q

/-- JS String(v) coercion where the value may be `undefined` (a missing
field); String(undefined) is the string "undefined". -/
def valueTextOpt : Option Value → String
  | some v => valueText v
  | none => "undefined"

/-- Characters of a string up to (excluding) the first '#'. -/
def stripFragmentChars : List Char → List Char
  | [] => []
  | c :: cs => if c = '#' then [] else c :: stripFragmentChars cs

/-- The part of a URL string before its fragment (everything up to the first
'#' character). -/
def stripFragment (s : String) : String :=
  ⟨stripFragmentChars s.data⟩

/-- Whether the pattern occurs at the head of the list. -/
def listStartsWith : List Char → List Char → Bool
  | [], _ => true
  | _ :: _, [] => false
  | p :: ps, c :: cs => p = c && listStartsWith ps cs

/-- Whether the pattern occurs as a contiguous segment of the list. -/
def listHasSeg (pat : List Char) : List Char → Bool
  | [] => listStartsWith pat []
  | c :: cs => listStartsWith pat (c :: cs) || listHasSeg pat cs

/-- Modelled from the spec: the platform URL parser used by normalizeUrl
(`new URL(raw)`) is not part of this repository. Parsing is modelled as
succeeding exactly when the string contains a scheme separator "://", and
serialization (`url.toString()`) as the identity on the parsed string. -/
def urlParseOk (s : String) : Bool :=
  listHasSeg "://".data s.data

/-- normalizeUrl from match.ts: parse the string as a URL; if `excludeHash`,
remove the fragment (`url.hash = ""`); serialize; on parse failure return the
raw string unmodified. The platform URL behaviour is modelled from the spec
(see urlParseOk): serialization is the identity apart from fragment removal. -/
def normalizeUrl (raw : String) (excludeHash : Bool) : String :=
  if urlParseOk raw then
    if excludeHash then stripFragment raw else raw
  else raw

/-- normalizeUrl applied to a runtime value: a non-string value fails URL
parsing and is returned raw (JS: `new URL(<number>)` throws, the catch
returns the raw value, and strict equality then compares the raw values). -/
def normalizeUrlV (v : Value) (excludeHash : Bool) : Value :=
  match v with
  | .str s => .str (normalizeUrl s excludeHash)
  | .num q => .num q

/-- Dot product over the common prefix of the two vectors (the source loops
over `min(a.length, b.length)`), with JS numbers modelled as rationals cast
into ℝ where needed; here the accumulators stay rational. -/
def dotp (a b : List ℚ) : ℚ :=
  (List.zipWith (fun x y => x * y) a b).sum

/-- The `magA` accumulator of cosineSimilarity: sum of squares of the first
vector's components over the common prefix. -/
def magA (a b : List ℚ) : ℚ :=
  (List.zipWith (fun x _ => x * x) a b).sum

/-- The `magB` accumulator of cosineSimilarity: sum of squares of the second
vector's components over the common prefix. -/
def magB (a b : List ℚ) : ℚ :=
  (List.zipWith (fun _ y => y * y) a b).sum

/-- cosineSimilarity from match.ts: dot product over the product of
magnitudes, computed over the common prefix of the two vectors; returns
exactly 0 when either (truncated) magnitude is zero. -/
noncomputable def cosineSimilarity (a b : List ℚ) : ℝ :=
  if magA a b = 0 ∨ magB a b = 0 then 0
  else (dotp a b : ℝ) / (Real.sqrt (magA a b) * Real.sqrt (magB a b))

/-- ScoreResult from match.ts. -/
structure ScoreResult : Type where
  ok : Bool
  score : ℝ
  exact : Bool

/-- EmbedFn from match.ts: `(input, model) => Effect<readonly number[]>`,
modelled with its typed error channel made explicit (ε is the provider's
failure type; scoreEntry catches every such failure). -/
def EmbedFn (ε : Type) : Type :=
  String → String → Except ε (List ℚ)

/-- The per-field step of scoreEntry's loop: `none` means the field
disqualifies the candidate (the loop returns `{ok:false, score:0,
exact:false}`), `some (contrib, fieldExact)` means the loop continues with
`score += contrib` and `exact := exact && fieldExact`.
  - no spec: Equal.equals (value equality; a missing cached field is
    `undefined`, never equal to a present requested value);
  - ExactURL: normalized equality, +1;
  - MoreIsBetter: disqualify if cached < requested, exact iff equal, +1
    (the non-numeric cases are unreachable under FuzzyFieldSpecFor's typing
    and modelled as disqualification; a missing cached field compares as JS
    `undefined < r = false`, `undefined !== r`, hence fuzzy +1);
  - CosineSimilarity: both embeddings via the memoizer with every failure
    caught (`Effect.catchAll` → `toOption`); a failed embedding
    disqualifies; similarity below threshold disqualifies; similarity < 1
    downgrades to fuzzy; contributes +similarity. -/
noncomputable def fieldScore {ε : Type} (emb : EmbedFn ε) (spec : Option FieldSpec)
    (req : Value) (prev : Option Value) : Option (ℝ × Bool) :=
  match spec with
  | none =>
    match prev with
    | some pv => if pv = req then some (1, true) else none
    | none => none
  | some (.ExactURL excludeHash) =>
    match prev with
    | some pv =>
      if normalizeUrlV req excludeHash = normalizeUrlV pv excludeHash then
        some (1, true)
      else none
    | none => none
  | some .MoreIsBetter =>
    match req, prev with
    | .num r, some (.num c) =>
      if c < r then none
      else if c = r then some (1, true) else some (1, false)
    | _, some _ => none
    | _, none => some (1, false)
  | some (.CosineSimilarity threshold model) =>
    match (emb (valueText req) model).toOption,
          (emb (valueTextOpt prev) model).toOption with
    | some va, some vb =>
      let sim := cosineSimilarity va vb
      if sim < (threshold : ℝ) then none
      else if sim < 1 then some (sim, false) else some (sim, true)
    | _, _ => none

/-- The loop of scoreEntry over the requested fields, carrying the mutable
`score` and `exact` accumulators; a disqualifying field short-circuits with
`{ok:false, score:0, exact:false}`. -/
noncomputable def scoreGo {ε : Type} (emb : EmbedFn ε) (fuzzy : FuzzyParamsSpec)
    (cached : Params) : List (String × Value) → ℝ → Bool → ScoreResult
  | [], score, exact => ⟨true, score, exact⟩
  | (key, req) :: rest, score, exact =>
    match fieldScore emb (alookup fuzzy key) req (alookup cached key) with
    | none => ⟨false, 0, false⟩
    | some (contrib, fieldExact) =>
      scoreGo emb fuzzy cached rest (score + contrib) (exact && fieldExact)

/-- scoreEntry from match.ts: score the cached params against the requested
params, iterating over the fields of `requested` in order. Its Effect type
has error channel `never`: every embedding failure is caught inside, so the
model is a total function into ScoreResult. -/
noncomputable def scoreEntry {ε : Type} (requested cached : Params)
    (fuzzy : FuzzyParamsSpec) (emb : EmbedFn ε) : ScoreResult :=
  scoreGo emb fuzzy cached requested 0 true

/-- A failure cause: a typed error or a defect (Effect's Cause, restricted to
the constructors the library produces). -/
inductive Cause (ε : Type) : Type where
  | fail (error : ε)
  | die (defect : String)
deriving DecidableEq

/-- Exit from Effect: the captured outcome of a computation, either a success
value or a failure cause (types.ts stores `CacheOutcome<E, A> = Exit<A, E>`). -/
inductive Exit (ε α : Type) : Type where
  | succeed (value : α)
  | failCause (cause : Cause ε)
deriving DecidableEq

/-- CacheEntry from types.ts: params, captured outcome, creation timestamp
(epoch milliseconds). -/
structure CacheEntry (ε α : Type) : Type where
  params : Params
  outcome : Exit ε α
  createdAt : ℚ

/-- CacheHitKind from types.ts. -/
inductive CacheHitKind : Type where
  | miss
  | exact
  | fuzzy
deriving DecidableEq

/-- CacheHitMeta from types.ts. -/
structure CacheHitMeta : Type where
  kind : CacheHitKind
  score : ℝ

/-- MatchArgs from match.ts. -/
structure MatchArgs (ε α : Type) : Type where
  now : ℚ
  ttl : ℚ
  params : Params
  entries : List (CacheEntry ε α)
  fuzzyParams : Option FuzzyParamsSpec
  embed : EmbedFn ε

/-- MatchResult from match.ts. -/
structure MatchResult (ε α : Type) : Type where
  entry : CacheEntry ε α
  hitMeta : CacheHitMeta

/-- The best-selection loop of matchBestEntry: skip entries scored not ok;
otherwise replace the running best exactly when there is no best yet or the
new score is strictly greater (`scored.score > best.score`). -/
noncomputable def bestLoop {ε α : Type} (sc : CacheEntry ε α → ScoreResult) :
    List (CacheEntry ε α) → Option (CacheEntry ε α × ℝ × Bool) →
    Option (CacheEntry ε α × ℝ × Bool)
  | [], best => best
  | e :: rest, best =>
    let scored := sc e
    if scored.ok = false then bestLoop sc rest best
    else
      match best with
      | none => bestLoop sc rest (some (e, scored.score, scored.exact))
      | some b =>
        if scored.score > b.2.1 then
          bestLoop sc rest (some (e, scored.score, scored.exact))
        else bestLoop sc rest best

/-- The freshness filter of matchBestEntry: entries with
`now - createdAt ≤ ttl` (boundary included). -/
def freshFilter {ε α : Type} (now ttl : ℚ) (entries : List (CacheEntry ε α)) :
    List (CacheEntry ε α) :=
  entries.filter (fun e => decide (now - e.createdAt ≤ ttl))

/-- The score matchBestEntry assigns to a candidate entry. -/
noncomputable def entryScore {ε α : Type} (args : MatchArgs ε α)
    (e : CacheEntry ε α) : ScoreResult :=
  scoreEntry args.params e.params (args.fuzzyParams.getD []) args.embed

/-- matchBestEntry from match.ts: filter by TTL, return null on no fresh
entries, otherwise run the best-selection loop and derive the hit kind
(exact iff the winner's exact flag is set, else fuzzy). Like scoreEntry its
Effect error channel is `never`: the model is total into Option. -/
noncomputable def matchBestEntry {ε α : Type} (args : MatchArgs ε α) :
    Option (MatchResult ε α) :=
  let fresh := freshFilter args.now args.ttl args.entries
  if fresh.isEmpty then none
  else
    match bestLoop (entryScore args) fresh none with
    | none => none
    | some b =>
      some ⟨b.1, ⟨if b.2.2 then CacheHitKind.exact else CacheHitKind.fuzzy, b.2.1⟩⟩

/-- exitToEffect from service.ts: replay a captured Exit as an Effect — a
success yields the value, a failure fails with the captured cause. In the
outcome model this maps each Exit to itself, constructor by constructor. -/
def exitToEffect {ε α : Type} (exit : Exit ε α) : Exit ε α :=
  match exit with
  | .failCause cause => .failCause cause
  | .succeed a => .succeed a

/-- DEFAULT_TTL_MILLIS from types.ts: 24 hours. -/
def DEFAULT_TTL_MILLIS : ℚ := 24 * 60 * 60 * 1000

/-- WithCachingConfig from types.ts (`fuzzyParams?` and `ttlMillis?` are
optional). The config is untyped over Params here because Params is the
concrete association-list type. -/
structure WithCachingConfig : Type where
  cacheName : String
  fuzzyParams : Option FuzzyParamsSpec
  ttlMillis : Option ℚ

/-- The wrap-time validation condition of withCaching / withCachingMeta:
`config.ttlMillis !== undefined && config.ttlMillis <= 0`. -/
def ttlInvalid : Option ℚ → Bool
  | none => false
  | some v => decide (v ≤ 0)

/-- The defect message of the misconfigured wrapper. -/
def ttlDefectMsg : String := "WithCachingConfig.ttlMillis must be positive"

/-- The FuzzyCacheStore state (store.ts): a map from cache names to
insertion-ordered entry lists, held in a Ref and modelled as an explicit
association list. -/
def Store (ε α : Type) : Type := List (String × List (CacheEntry ε α))

/-- getAll from store.ts: all entries for a cache name, empty if unknown. -/
def getAll {ε α : Type} (s : Store ε α) (cacheName : String) :
    List (CacheEntry ε α) :=
  (alookup s cacheName).getD []

/-- put from store.ts: append an entry to the named cache's list (the source
copies the map and sets `existing ++ [entry]`). -/
def put {ε α : Type} (s : Store ε α) (cacheName : String)
    (entry : CacheEntry ε α) : Store ε α :=
  aset s cacheName (getAll s cacheName ++ [entry])

/-- The outcome of one invocation of a wrapped function: the call's Exit, the
store after the call, and whether the underlying function was invoked (the
invocation flag is model instrumentation; the source invokes `fn` exactly on
the branch where the flag is set). -/
structure CallOut (ε α : Type) : Type where
  result : Exit ε α
  store : Store ε α
  invoked : Bool

/-- withCaching from service.ts (the identical code appears in the
FuzzyCacheService class and in makeFuzzyCacheLayer): at wrap time a
non-positive configured TTL yields a permanently inert function that dies
with a configuration defect; otherwise each call reads the current time,
computes the effective TTL, reads all entries for the cache name, runs
matchBestEntry, and on a hit replays the stored outcome, on a miss captures
`fn params` as an Exit, appends the new entry, and replays that Exit. The
current time and the store are explicit arguments; the call returns the new
store and the invocation flag. -/
noncomputable def withCaching {ε α : Type} (fn : Params → Exit ε α)
    (config : WithCachingConfig) (emb : EmbedFn ε) :
    Params → Store ε α → ℚ → CallOut ε α :=
  if ttlInvalid config.ttlMillis then
    fun _ s _ => ⟨.failCause (.die ttlDefectMsg), s, false⟩
  else
    fun params s now =>
      let ttl := config.ttlMillis.getD DEFAULT_TTL_MILLIS
      let entries := getAll s config.cacheName
      match matchBestEntry ⟨now, ttl, params, entries, config.fuzzyParams, emb⟩ with
      | some matchResult => ⟨exitToEffect matchResult.entry.outcome, s, false⟩
      | none =>
        let exit := fn params
        ⟨exitToEffect exit, put s config.cacheName ⟨params, exit, now⟩, true⟩

/-- The outcome of one invocation of a withCachingMeta-wrapped function: the
success value carries the CacheHitMeta alongside the value. -/
structure CallOutMeta (ε α : Type) : Type where
  result : Exit ε (α × CacheHitMeta)
  store : Store ε α
  invoked : Bool

/-- withCachingMeta from service.ts: as withCaching, but a successful replay
returns `{value, cache: hitMeta}` and a fresh computation returns
`{value, cache: {kind: miss, score: 0}}`; a replayed or fresh failure fails
the call itself (the metadata is attached only on success). -/
noncomputable def withCachingMeta {ε α : Type} (fn : Params → Exit ε α)
    (config : WithCachingConfig) (emb : EmbedFn ε) :
    Params → Store ε α → ℚ → CallOutMeta ε α :=
  if ttlInvalid config.ttlMillis then
    fun _ s _ => ⟨.failCause (.die ttlDefectMsg), s, false⟩
  else
    fun params s now =>
      let ttl := config.ttlMillis.getD DEFAULT_TTL_MILLIS
      let entries := getAll s config.cacheName
      match matchBestEntry ⟨now, ttl, params, entries, config.fuzzyParams, emb⟩ with
      | some matchResult =>
        match exitToEffect matchResult.entry.outcome with
        | .succeed value => ⟨.succeed (value, matchResult.hitMeta), s, false⟩
        | .failCause cause => ⟨.failCause cause, s, false⟩
      | none =>
        let exit := fn params
        let s' := put s config.cacheName ⟨params, exit, now⟩
        match exitToEffect exit with
        | .succeed value => ⟨.succeed (value, ⟨CacheHitKind.miss, 0⟩), s', true⟩
        | .failCause cause => ⟨.failCause cause, s', true⟩

/-- Sequential repeated invocation of a wrapped function (model harness for
"calling the wrapper repeatedly"): threads the store through the calls at
the given sequence of times and counts underlying invocations. -/
noncomputable def callSeq {ε α : Type} (w : Params → Store ε α → ℚ → CallOut ε α)
    (params : Params) : List ℚ → Store ε α → List (Exit ε α) × Store ε α × ℕ
  | [], s => ([], s, 0)
  | t :: ts, s =>
    let c := w params s t
    let r := callSeq w params ts c.store
    (c.result :: r.1, r.2.1, (cond c.invoked 1 0) + r.2.2)

/-- The embedding memoizer's state (embeddings.ts): a HashMap from
`(text, model)` keys (value equality via Data.struct) to vectors, held in a
Ref and modelled as an explicit association list. -/
def EmbCache : Type := List ((String × String) × List ℚ)

/-- The outcome of one call of the memoized embed function: the call's
result, the embedding cache after the call, and whether the raw provider was
invoked (model instrumentation; the source calls `rawEmbed` exactly on the
branch where the flag is set). -/
structure EmbedOut (ε : Type) : Type where
  result : Except ε (List ℚ)
  cache : EmbCache
  invoked : Bool

/-- The memoized `embed` closure of makeEmbeddingsService (embeddings.ts): on
a cache hit return the stored vector without invoking the provider; on a
miss invoke `rawEmbed`, store the result under the key, and return it. A
provider failure propagates unchanged and stores nothing (the `Ref.update`
is sequenced after the provider call succeeds). -/
def memoEmbed {ε : Type} (rawEmbed : EmbedFn ε) (cache : EmbCache)
    (input model : String) : EmbedOut ε :=
  match alookup cache (input, model) with
  | some vector => ⟨.ok vector, cache, false⟩
  | none =>
    match rawEmbed input model with
    | .ok vector => ⟨.ok vector, aset cache (input, model) vector, true⟩
    | .error e => ⟨.error e, cache, true⟩

/-- A trivial embedding provider (always succeeds with the empty vector),
used to instantiate theorems at concrete inputs. -/
def embOkNil : EmbedFn Unit := fun _ _ => Except.ok []

/-- An always-failing embedding provider, used to instantiate theorems at
concrete inputs. -/
def embFail : EmbedFn Unit := fun _ _ => Except.error ()

/-- A concrete cache entry with empty params, used to instantiate theorems. -/
def entryW : CacheEntry Unit Unit := ⟨[], Exit.succeed (), 0⟩

/-- A concrete cache entry with one string field, used to instantiate
theorems. -/
def entryW2 : CacheEntry Unit Unit := ⟨[("x", Value.str "a")], Exit.succeed (), 0⟩

/-- Concrete match arguments whose single fresh entry matches the request
exactly, used to instantiate theorems. -/
def argsW : MatchArgs Unit Unit :=
  ⟨0, 1000, [("x", Value.str "a")], [entryW2], none, embOkNil⟩

theorem alookup_aset_self {κ β : Type} [DecidableEq κ] (l : List (κ × β)) (k : κ) (v : β) :
    alookup (aset l k v) k = some v := by
  induction l with
  | nil => simp [aset, alookup]
  | cons hd tl ih =>
    obtain ⟨k', w⟩ := hd
    by_cases h : k = k'
    · simp [aset, h, alookup]
    · simp [aset, h, alookup, ih]

theorem alookup_eq_some_of_mem {κ β : Type} [DecidableEq κ] :
    ∀ {l : List (κ × β)} {k : κ} {v : β},
      (l.map Prod.fst).Nodup → (k, v) ∈ l → alookup l k = some v := by
  intro l
  induction l with
  | nil => intro k v _ hm; simp at hm
  | cons hd tl ih =>
    intro k v hnd hm
    obtain ⟨k', w⟩ := hd
    rw [List.map_cons, List.nodup_cons] at hnd
    rcases List.mem_cons.mp hm with heq | htl
    · cases heq
      simp [alookup]
    · have hkm : k ∈ tl.map Prod.fst := List.mem_map.mpr ⟨(k, v), htl, rfl⟩
      have hne : k ≠ k' := by
        rintro rfl
        exact hnd.1 hkm
      simp [alookup, hne, ih hnd.2 htl]

theorem getAll_put {ε α : Type} (s : Store ε α) (n : String) (e : CacheEntry ε α) :
    getAll (put s n e) n = getAll s n ++ [e] := by
  unfold put getAll
  rw [alookup_aset_self]
  rfl

theorem exitToEffect_eq {ε α : Type} (e : Exit ε α) : exitToEffect e = e := by
  cases e <;> rfl

theorem scoreGo_self {ε : Type} (emb : EmbedFn ε) (cached : Params) :
    ∀ (l : List (String × Value)) (score : ℝ) (exact : Bool),
      (∀ kv ∈ l, alookup cached kv.1 = some kv.2) →
      scoreGo emb [] cached l score exact = ⟨true, score + l.length, exact⟩ := by
  intro l
  induction l with
  | nil =>
    intro score exact _
    simp [scoreGo]
  | cons hd tl ih =>
    intro score exact h
    obtain ⟨k, v⟩ := hd
    have hk : alookup cached k = some v := h (k, v) (List.mem_cons_self _ _)
    have hrest : ∀ kv ∈ tl, alookup cached kv.1 = some kv.2 :=
      fun kv hkv => h kv (List.mem_cons_of_mem _ hkv)
    have hstep : scoreGo emb [] cached ((k, v) :: tl) score exact
        = scoreGo emb [] cached tl (score + 1) (exact && true) := by
      simp [scoreGo, alookup, fieldScore, hk]
    rw [hstep, ih (score + 1) (exact && true) hrest]
    simp only [Bool.and_true, List.length_cons]
    congr 1
    push_cast
    ring

/-- Self-match: scoring a parameter set against itself with no fuzzy spec
succeeds with one point per field and stays exact (requires the JS-object
invariant that field names are not duplicated). -/
theorem scoreEntry_self {ε : Type} (emb : EmbedFn ε) (p : Params)
    (hnd : (p.map Prod.fst).Nodup) :
    scoreEntry p p [] emb = ⟨true, (p.length : ℝ), true⟩ := by
  unfold scoreEntry
  rw [scoreGo_self emb p p 0 true
    (fun kv hkv => alookup_eq_some_of_mem hnd (by simpa using hkv))]
  simp

theorem scoreGo_ok_false_of_mem {ε : Type} (emb : EmbedFn ε) (fuzzy : FuzzyParamsSpec)
    (cached : Params) :
    ∀ (l : List (String × Value)) (score : ℝ) (exact : Bool),
      (∃ kv ∈ l, fieldScore emb (alookup fuzzy kv.1) kv.2 (alookup cached kv.1) = none) →
      (scoreGo emb fuzzy cached l score exact).ok = false := by
  intro l
  induction l with
  | nil =>
    rintro _ _ ⟨kv, hm, _⟩
    simp at hm
  | cons hd tl ih =>
    rintro score exact ⟨kv, hm, hnone⟩
    obtain ⟨k, v⟩ := hd
    rcases List.mem_cons.mp hm with heq | htl
    · subst heq
      simp [scoreGo, hnone]
    · cases hfs : fieldScore emb (alookup fuzzy k) v (alookup cached k) with
      | none => simp [scoreGo, hfs]
      | some pr =>
        obtain ⟨c, fe⟩ := pr
        simp only [scoreGo, hfs]
        exact ih _ _ ⟨kv, htl, hnone⟩

theorem bestLoop_all_false {ε α : Type} (sc : CacheEntry ε α → ScoreResult) :
    ∀ (l : List (CacheEntry ε α)) (acc : Option (CacheEntry ε α × ℝ × Bool)),
      (∀ e ∈ l, (sc e).ok = false) → bestLoop sc l acc = acc := by
  intro l
  induction l with
  | nil => intro acc _; rfl
  | cons hd tl ih =>
    intro acc h
    have hh : (sc hd).ok = false := h hd (List.mem_cons_self _ _)
    simp only [bestLoop, hh, if_pos rfl]
    exact ih acc (fun e he => h e (List.mem_cons_of_mem _ he))

theorem bestLoop_single_ok {ε α : Type} (sc : CacheEntry ε α → ScoreResult)
    (e : CacheEntry ε α) (h : (sc e).ok = true) :
    bestLoop sc [e] none = some (e, (sc e).score, (sc e).exact) := by
  simp [bestLoop, h]

theorem bestLoop_some_char {ε α : Type} (sc : CacheEntry ε α → ScoreResult) :
    ∀ (l : List (CacheEntry ε α)) (e0 : CacheEntry ε α) (s0 : ℝ) (x0 : Bool)
      (res : CacheEntry ε α × ℝ × Bool),
      bestLoop sc l (some (e0, s0, x0)) = some res →
      (res = (e0, s0, x0) ∧ ∀ e ∈ l, (sc e).ok = true → (sc e).score ≤ s0)
      ∨ (∃ l1 l2, l = l1 ++ res.1 :: l2 ∧ (sc res.1).ok = true ∧
          res.2.1 = (sc res.1).score ∧ res.2.2 = (sc res.1).exact ∧ s0 < res.2.1 ∧
          (∀ e ∈ l1, (sc e).ok = true → (sc e).score < res.2.1) ∧
          (∀ e ∈ l2, (sc e).ok = true → (sc e).score ≤ res.2.1)) := by
  intro l
  induction l with
  | nil =>
    intro e0 s0 x0 res h
    left
    refine ⟨by simpa [bestLoop] using h.symm, by simp⟩
  | cons hd tl ih =>
    intro e0 s0 x0 res h
    by_cases hok : (sc hd).ok = false
    · simp only [bestLoop, hok, if_pos rfl] at h
      rcases ih e0 s0 x0 res h with ⟨hres, hbd⟩ | ⟨l1, l2, hdec, hrest⟩
      · left
        refine ⟨hres, ?_⟩
        intro e he hoke
        rcases List.mem_cons.mp he with rfl | htl
        · rw [hoke] at hok; exact absurd hok (by simp)
        · exact hbd e htl hoke
      · right
        exact ⟨hd :: l1, l2, by simp [hdec], hrest.1, hrest.2.1, hrest.2.2.1, hrest.2.2.2.1,
          by
            intro e he hoke
            rcases List.mem_cons.mp he with rfl | htl
            · rw [hoke] at hok; exact absurd hok (by simp)
            · exact hrest.2.2.2.2.1 e htl hoke,
          hrest.2.2.2.2.2⟩
    · have hokt : (sc hd).ok = true := by
        cases hv : (sc hd).ok
        · exact absurd hv hok
        · rfl
      by_cases hgt : (sc hd).score > s0
      · simp only [bestLoop, hok, if_neg, hgt, if_pos] at h
        rcases ih hd (sc hd).score (sc hd).exact res h with ⟨hres, hbd⟩ | ⟨l1, l2, hdec, hrest⟩
        · right
          refine ⟨[], tl, by simp [hres], ?_, ?_, ?_, ?_, by simp, ?_⟩
          · rw [hres]; exact hokt
          · rw [hres]
          · rw [hres]
          · rw [hres]; exact hgt
          · intro e he hoke
            have := hbd e he hoke
            rw [hres]
            exact this
        · right
          refine ⟨hd :: l1, l2, by simp [hdec], hrest.1, hrest.2.1, hrest.2.2.1, ?_, ?_,
            hrest.2.2.2.2.2⟩
          · exact lt_trans hgt hrest.2.2.2.1
          · intro e he hoke
            rcases List.mem_cons.mp he with rfl | htl
            · exact hrest.2.2.2.1
            · exact hrest.2.2.2.2.1 e htl hoke
      · simp only [bestLoop, hok, if_neg, hgt, if_neg] at h
        rcases ih e0 s0 x0 res h with ⟨hres, hbd⟩ | ⟨l1, l2, hdec, hrest⟩
        · left
          refine ⟨hres, ?_⟩
          intro e he hoke
          rcases List.mem_cons.mp he with rfl | htl
          · exact le_of_not_lt hgt
          · exact hbd e htl hoke
        · right
          refine ⟨hd :: l1, l2, by simp [hdec], hrest.1, hrest.2.1, hrest.2.2.1,
            hrest.2.2.2.1, ?_, hrest.2.2.2.2.2⟩
          intro e he hoke
          rcases List.mem_cons.mp he with rfl | htl
          · exact lt_of_le_of_lt (le_of_not_lt hgt) hrest.2.2.2.1
          · exact hrest.2.2.2.2.1 e htl hoke

theorem bestLoop_none_char {ε α : Type} (sc : CacheEntry ε α → ScoreResult) :
    ∀ (l : List (CacheEntry ε α)) (res : CacheEntry ε α × ℝ × Bool),
      bestLoop sc l none = some res →
      ∃ l1 l2, l = l1 ++ res.1 :: l2 ∧ (sc res.1).ok = true ∧
        res.2.1 = (sc res.1).score ∧ res.2.2 = (sc res.1).exact ∧
        (∀ e ∈ l1, (sc e).ok = true → (sc e).score < res.2.1) ∧
        (∀ e ∈ l2, (sc e).ok = true → (sc e).score ≤ res.2.1) := by
  intro l
  induction l with
  | nil =>
    intro res h
    simp [bestLoop] at h
  | cons hd tl ih =>
    intro res h
    by_cases hok : (sc hd).ok = false
    · simp only [bestLoop, hok, if_pos rfl] at h
      obtain ⟨l1, l2, hdec, hrest⟩ := ih res h
      refine ⟨hd :: l1, l2, by simp [hdec], hrest.1, hrest.2.1, hrest.2.2.1, ?_,
        hrest.2.2.2.2⟩
      intro e he hoke
      rcases List.mem_cons.mp he with rfl | htl
      · rw [hoke] at hok; exact absurd hok (by simp)
      · exact hrest.2.2.2.1 e htl hoke
    · have hokt : (sc hd).ok = true := by
        cases hv : (sc hd).ok
        · exact absurd hv hok
        · rfl
      simp only [bestLoop, hok, if_neg] at h
      rcases bestLoop_some_char sc tl hd (sc hd).score (sc hd).exact res h with
        ⟨hres, hbd⟩ | ⟨l1, l2, hdec, hrest⟩
      · refine ⟨[], tl, by simp [hres], ?_, ?_, ?_, by simp, ?_⟩
        · rw [hres]; exact hokt
        · rw [hres]
        · rw [hres]
        · intro e he hoke
          have := hbd e he hoke
          rw [hres]
          exact this
      · refine ⟨hd :: l1, l2, by simp [hdec], hrest.1, hrest.2.1, hrest.2.2.1, ?_,
          hrest.2.2.2.2.2⟩
        intro e he hoke
        rcases List.mem_cons.mp he with rfl | htl
        · exact hrest.2.2.2.1
        · exact hrest.2.2.2.2.1 e htl hoke

theorem matchBestEntry_nil_entries {ε α : Type} (args : MatchArgs ε α)
    (h : args.entries = []) : matchBestEntry args = none := by
  unfold matchBestEntry
  simp [freshFilter, h]

theorem matchBestEntry_single_hit {ε α : Type} (args : MatchArgs ε α)
    (e : CacheEntry ε α) (hent : args.entries = [e])
    (hfresh : args.now - e.createdAt ≤ args.ttl)
    (hok : (entryScore args e).ok = true) :
    matchBestEntry args =
      some ⟨e, ⟨if (entryScore args e).exact then CacheHitKind.exact else CacheHitKind.fuzzy,
        (entryScore args e).score⟩⟩ := by
  have hff : freshFilter args.now args.ttl args.entries = [e] := by
    unfold freshFilter
    rw [hent, List.filter_cons, decide_eq_true hfresh]
    simp
  simp [matchBestEntry, hff, bestLoop_single_ok (entryScore args) e hok]

theorem normalizeUrl_false_eq (x : String) : normalizeUrl x false = x := by
  unfold normalizeUrl
  split <;> simp

theorem dotp_cons (x y : ℚ) (xs ys : List ℚ) :
    dotp (x :: xs) (y :: ys) = x * y + dotp xs ys := by
  simp [dotp]

theorem magA_cons (x y : ℚ) (xs ys : List ℚ) :
    magA (x :: xs) (y :: ys) = x * x + magA xs ys := by
  simp [magA]

theorem magB_cons (x y : ℚ) (xs ys : List ℚ) :
    magB (x :: xs) (y :: ys) = y * y + magB xs ys := by
  simp [magB]

theorem dotp_comm (a : List ℚ) : ∀ b : List ℚ, dotp a b = dotp b a := by
  induction a with
  | nil => intro b; cases b <;> simp [dotp]
  | cons x xs ih =>
    intro b
    cases b with
    | nil => simp [dotp]
    | cons y ys => rw [dotp_cons, dotp_cons, ih ys, mul_comm]

theorem magA_swap (a : List ℚ) : ∀ b : List ℚ, magA a b = magB b a := by
  induction a with
  | nil => intro b; cases b <;> simp [magA, magB]
  | cons x xs ih =>
    intro b
    cases b with
    | nil => simp [magA, magB]
    | cons y ys => rw [magA_cons, magB_cons, ih ys]

theorem dotp_self (a : List ℚ) : dotp a a = magA a a := by
  induction a with
  | nil => rfl
  | cons x xs ih => rw [dotp_cons, magA_cons, ih]

theorem magA_nonneg (a : List ℚ) : ∀ b : List ℚ, 0 ≤ magA a b := by
  induction a with
  | nil => intro b; cases b <;> simp [magA]
  | cons x xs ih =>
    intro b
    cases b with
    | nil => simp [magA]
    | cons y ys =>
      rw [magA_cons]
      have h1 : (0 : ℚ) ≤ x * x := mul_self_nonneg x
      have h2 := ih ys
      linarith

/-- A wrapper call with no fuzzy spec and a valid TTL over an empty store is
a miss: it invokes the function, stores the captured outcome at the current
time, and replays it. -/
theorem withCaching_miss_empty {ε α : Type} (fn : Params → Exit ε α) (name : String)
    (ttl? : Option ℚ) (emb : EmbedFn ε) (p : Params) (t : ℚ)
    (httl : ttlInvalid ttl? = false) :
    withCaching fn ⟨name, none, ttl?⟩ emb p [] t
      = ⟨fn p, [(name, [⟨p, fn p, t⟩])], true⟩ := by
  have hm : matchBestEntry (ε := ε) (α := α)
      ⟨t, ttl?.getD DEFAULT_TTL_MILLIS, p, [], none, emb⟩ = none :=
    matchBestEntry_nil_entries _ rfl
  simp only [withCaching, httl, Bool.false_eq_true, if_false]
  simp [getAll, alookup, hm, exitToEffect_eq, put, aset]

/-- A wrapper call with no fuzzy spec and a valid TTL over a store whose
cache holds exactly one entry with the same params, still within the TTL,
replays that entry's outcome without invoking the function and leaves the
store unchanged. -/
theorem withCaching_hit_self {ε α : Type} (fn : Params → Exit ε α) (name : String)
    (ttl? : Option ℚ) (emb : EmbedFn ε) (p : Params) (e : CacheEntry ε α)
    (s : Store ε α) (t : ℚ)
    (hnd : (p.map Prod.fst).Nodup)
    (httl : ttlInvalid ttl? = false)
    (hget : getAll s name = [e])
    (hparams : e.params = p)
    (hfresh : t - e.createdAt ≤ ttl?.getD DEFAULT_TTL_MILLIS) :
    withCaching fn ⟨name, none, ttl?⟩ emb p s t = ⟨e.outcome, s, false⟩ := by
  have hok : (entryScore ⟨t, ttl?.getD DEFAULT_TTL_MILLIS, p, [e], none, emb⟩ e).ok
      = true := by
    show (scoreEntry p e.params [] emb).ok = true
    rw [hparams, scoreEntry_self emb p hnd]
  have hm := matchBestEntry_single_hit
    ⟨t, ttl?.getD DEFAULT_TTL_MILLIS, p, [e], none, emb⟩ e rfl hfresh hok
  simp only [withCaching, httl, Bool.false_eq_true, if_false, hget, hm,
    exitToEffect_eq]

/-- C4: a configured `ttlMillis` that is defined and not positive makes the
wrapper permanently inert: every invocation of either wrapped function
immediately fails with the configuration defect, leaves the store unchanged,
and never invokes the underlying function. -/
theorem claim_C4 {ε α : Type} (fn : Params → Exit ε α) (name : String)
    (fz : Option FuzzyParamsSpec) (v : ℚ) (hv : v ≤ 0) (emb : EmbedFn ε)
    (p : Params) (s : Store ε α) (t : ℚ) :
    withCaching fn ⟨name, fz, some v⟩ emb p s t
      = ⟨.failCause (.die ttlDefectMsg), s, false⟩
    ∧ withCachingMeta fn ⟨name, fz, some v⟩ emb p s t
      = ⟨.failCause (.die ttlDefectMsg), s, false⟩ := by
  have hbad : ttlInvalid (some v) = true := by simp [ttlInvalid, hv]
  constructor
  · simp [withCaching, hbad]
  · simp [withCachingMeta, hbad]

/-- C4 witness: at `ttlMillis = 0` the wrapper dies with the configuration
defect without touching the store or the function. -/
theorem claim_C4_witness :
    (0 : ℚ) ≤ 0 ∧
    withCaching (ε := Unit) (α := ℕ) (fun _ => .succeed 0) ⟨"c", none, some 0⟩
        embOkNil [] [] 0
      = ⟨.failCause (.die ttlDefectMsg), [], false⟩ :=
  ⟨le_refl 0,
    (claim_C4 (ε := Unit) (α := ℕ) (fun _ => .succeed 0) "c" none 0 (le_refl 0)
      embOkNil [] [] 0).1⟩

/-- C5: under MoreIsBetter, a request r against a stored numeric c with
r ≤ c never disqualifies, contributes +1 to the score, and the field stays
exact exactly when c = r; r > c always disqualifies. -/
theorem claim_C5 {ε : Type} (emb : EmbedFn ε) (k : String) (r c : ℚ) :
    (r ≤ c →
      (scoreEntry [(k, .num r)] [(k, .num c)] [(k, .MoreIsBetter)] emb).ok = true ∧
      (scoreEntry [(k, .num r)] [(k, .num c)] [(k, .MoreIsBetter)] emb).score = 1 ∧
      ((scoreEntry [(k, .num r)] [(k, .num c)] [(k, .MoreIsBetter)] emb).exact = true ↔ c = r))
    ∧ (c < r →
      (scoreEntry [(k, .num r)] [(k, .num c)] [(k, .MoreIsBetter)] emb).ok = false) := by
  constructor
  · intro hrc
    have hval : scoreEntry [(k, .num r)] [(k, .num c)] [(k, .MoreIsBetter)] emb
        = ⟨true, 1, decide (c = r)⟩ := by
      by_cases heq : c = r <;>
        simp [scoreEntry, scoreGo, fieldScore, alookup, not_lt.mpr hrc, heq]
    rw [hval]
    exact ⟨rfl, rfl, by simp⟩
  · intro hlt
    simp [scoreEntry, scoreGo, fieldScore, alookup, hlt]

/-- C5 witness: request 1 against stored 2 is usable and fuzzy; request 2
against stored 1 is disqualified. -/
theorem claim_C5_witness :
    ((1 : ℚ) ≤ 2 ∧
      (scoreEntry [("level", .num 1)] [("level", .num 2)]
        [("level", .MoreIsBetter)] embOkNil).ok = true)
    ∧ ((1 : ℚ) < 2 ∧
      (scoreEntry [("level", .num 2)] [("level", .num 1)]
        [("level", .MoreIsBetter)] embOkNil).ok = false) :=
  ⟨⟨by norm_num, ((claim_C5 embOkNil "level" 1 2).1 (by norm_num)).1⟩,
   ⟨by norm_num, (claim_C5 embOkNil "level" 2 1).2 (by norm_num)⟩⟩

/-- C6: under ExactURL with excludeHash, two parseable URL strings that agree
up to their fragment score as equal (usable, +1, exact); without excludeHash
two distinct strings are disqualified. -/
theorem claim_C6 {ε : Type} (emb : EmbedFn ε) (k : String) (a b : String) :
    (urlParseOk a = true → urlParseOk b = true → stripFragment a = stripFragment b →
      (scoreEntry [(k, .str a)] [(k, .str b)] [(k, .ExactURL true)] emb).ok = true ∧
      (scoreEntry [(k, .str a)] [(k, .str b)] [(k, .ExactURL true)] emb).score = 1 ∧
      (scoreEntry [(k, .str a)] [(k, .str b)] [(k, .ExactURL true)] emb).exact = true)
    ∧ (a ≠ b →
      (scoreEntry [(k, .str a)] [(k, .str b)] [(k, .ExactURL false)] emb).ok = false) := by
  constructor
  · intro hpa hpb hsf
    have hnorm : normalizeUrl a true = normalizeUrl b true := by
      simp [normalizeUrl, hpa, hpb, hsf]
    refine ⟨?_, ?_, ?_⟩ <;>
      simp [scoreEntry, scoreGo, fieldScore, alookup, normalizeUrlV, hnorm]
  · intro hne
    have hnorm : normalizeUrl a false ≠ normalizeUrl b false := by
      rw [normalizeUrl_false_eq, normalizeUrl_false_eq]
      exact hne
    simp [scoreEntry, scoreGo, fieldScore, alookup, normalizeUrlV, hnorm]

/-- C6 witness: two URLs differing only in fragment are equal under
excludeHash and unequal without it. -/
theorem claim_C6_witness :
    (urlParseOk "http://ex.com/p#one" = true ∧ urlParseOk "http://ex.com/p#two" = true ∧
      stripFragment "http://ex.com/p#one" = stripFragment "http://ex.com/p#two" ∧
      (scoreEntry [("u", .str "http://ex.com/p#one")] [("u", .str "http://ex.com/p#two")]
        [("u", .ExactURL true)] embOkNil).ok = true)
    ∧ ("http://ex.com/p#one" ≠ "http://ex.com/p#two" ∧
      (scoreEntry [("u", .str "http://ex.com/p#one")] [("u", .str "http://ex.com/p#two")]
        [("u", .ExactURL false)] embOkNil).ok = false) := by
  have hpa : urlParseOk "http://ex.com/p#one" = true := by decide
  have hpb : urlParseOk "http://ex.com/p#two" = true := by decide
  have hsf : stripFragment "http://ex.com/p#one" = stripFragment "http://ex.com/p#two" := by
    decide
  have hne : "http://ex.com/p#one" ≠ "http://ex.com/p#two" := by decide
  exact ⟨⟨hpa, hpb, hsf,
      ((claim_C6 embOkNil "u" "http://ex.com/p#one" "http://ex.com/p#two").1 hpa hpb hsf).1⟩,
    ⟨hne, (claim_C6 embOkNil "u" "http://ex.com/p#one" "http://ex.com/p#two").2 hne⟩⟩

/-- C8: with a succeeding provider, a miss on (text, model) invokes the raw
provider, stores the vector under that key, and returns it; an immediately
following call with the same pair returns the stored vector without invoking
the provider — one underlying invocation across the two calls. -/
theorem claim_C8 {ε : Type} (rawEmbed : EmbedFn ε) (c0 : EmbCache) (t m : String)
    (v : List ℚ) (hmiss : alookup c0 (t, m) = none) (hraw : rawEmbed t m = .ok v) :
    memoEmbed rawEmbed c0 t m = ⟨.ok v, aset c0 (t, m) v, true⟩
    ∧ alookup (aset c0 (t, m) v) (t, m) = some v
    ∧ memoEmbed rawEmbed (aset c0 (t, m) v) t m = ⟨.ok v, aset c0 (t, m) v, false⟩ := by
  have h2 := alookup_aset_self c0 (t, m) v
  refine ⟨?_, h2, ?_⟩
  · simp [memoEmbed, hmiss, hraw]
  · simp [memoEmbed, h2]

/-- C8 witness: concrete miss-then-hit sequence with one provider call. -/
theorem claim_C8_witness :
    alookup ([] : EmbCache) ("hello", "m1") = none ∧
    (fun _ _ => Except.ok [1] : EmbedFn Unit) "hello" "m1" = .ok [1] ∧
    memoEmbed (fun _ _ => Except.ok [1] : EmbedFn Unit) [] "hello" "m1"
      = ⟨.ok [1], aset [] ("hello", "m1") [1], true⟩ ∧
    memoEmbed (fun _ _ => Except.ok [1] : EmbedFn Unit)
        (aset [] ("hello", "m1") [1]) "hello" "m1"
      = ⟨.ok [1], aset [] ("hello", "m1") [1], false⟩ := by
  have h := claim_C8 (fun _ _ => Except.ok [1] : EmbedFn Unit) [] "hello" "m1" [1] rfl rfl
  exact ⟨rfl, rfl, h.1, h.2.2⟩

/-- C9: cosine similarity of a vector with itself is exactly 1 when its
magnitude accumulator is nonzero; it is exactly 0 (never NaN) when either
magnitude accumulator is zero; and it is commutative. -/
theorem claim_C9 :
    (∀ a : List ℚ, magA a a ≠ 0 → cosineSimilarity a a = 1)
    ∧ (∀ a b : List ℚ, magA a b = 0 ∨ magB a b = 0 → cosineSimilarity a b = 0)
    ∧ (∀ a b : List ℚ, cosineSimilarity a b = cosineSimilarity b a) := by
  refine ⟨?_, ?_, ?_⟩
  · intro a ha
    have hB : magB a a = magA a a := (magA_swap a a).symm
    have hnn : (0 : ℚ) ≤ magA a a := magA_nonneg a a
    unfold cosineSimilarity
    rw [if_neg (by rw [hB]; simp [ha])]
    rw [dotp_self, hB]
    rw [Real.mul_self_sqrt (by exact_mod_cast hnn)]
    exact div_self (by exact_mod_cast ha)
  · intro a b h
    simp [cosineSimilarity, h]
  · intro a b
    have hAB : magA a b = magB b a := magA_swap a b
    have hBA : magB a b = magA b a := (magA_swap b a).symm
    by_cases h : magA a b = 0 ∨ magB a b = 0
    · have h' : magA b a = 0 ∨ magB b a = 0 := by
        rcases h with h | h
        · right; rw [← hAB]; exact h
        · left; rw [← hBA]; exact h
      unfold cosineSimilarity
      rw [if_pos h, if_pos h']
    · have h' : ¬(magA b a = 0 ∨ magB b a = 0) := by
        intro hc
        apply h
        rcases hc with hc | hc
        · right; rw [hBA]; exact hc
        · left; rw [hAB]; exact hc
      unfold cosineSimilarity
      rw [if_neg h, if_neg h', dotp_comm a b, hAB, hBA]
      ring

/-- C9 witness: self-similarity 1 at the unit vector and exact 0 at a
zero-magnitude first argument. -/
theorem claim_C9_witness :
    magA [(1 : ℚ)] [1] ≠ 0 ∧ cosineSimilarity [1] [1] = 1 ∧
    magA [(0 : ℚ)] [1] = 0 ∧ cosineSimilarity [0] [1] = 0 := by
  have h1 : magA [(1 : ℚ)] [1] ≠ 0 := by
    rw [magA_cons]
    norm_num [magA]
  have h0 : magA [(0 : ℚ)] [1] = 0 := by
    rw [magA_cons]
    norm_num [magA]
  exact ⟨h1, claim_C9.1 [1] h1, h0, claim_C9.2.1 [0] [1] (Or.inl h0)⟩

/-- C3: embedding-provider failures are contained. Scoring a candidate over a
requested field with a CosineSimilarity spec under a failing provider
disqualifies that candidate (ok = false), and when the failures eliminate
every candidate (every requested field is a similarity field), matchBestEntry
returns "no match" rather than an error. The lookup itself cannot propagate
the provider failure: scoreEntry and matchBestEntry are total over any
provider, mirroring their source Effect types with error channel never. -/
theorem claim_C3 {ε α : Type} (emb : EmbedFn ε)
    (hfail : ∀ t m, (emb t m).toOption = none) :
    (∀ (requested cached : Params) (fuzzy : FuzzyParamsSpec) (k : String) (v : Value)
        (θ : ℚ) (mdl : String), (k, v) ∈ requested →
        alookup fuzzy k = some (.CosineSimilarity θ mdl) →
        (scoreEntry requested cached fuzzy emb).ok = false)
    ∧ (∀ (now ttl : ℚ) (params : Params) (entries : List (CacheEntry ε α))
        (fz : Option FuzzyParamsSpec), params ≠ [] →
        (∀ kv ∈ params, ∃ θ mdl, alookup (fz.getD []) kv.1
          = some (FieldSpec.CosineSimilarity θ mdl)) →
        matchBestEntry ⟨now, ttl, params, entries, fz, emb⟩ = none) := by
  have hfs : ∀ (θ : ℚ) (mdl : String) (v : Value) (prev : Option Value),
      fieldScore emb (some (.CosineSimilarity θ mdl)) v prev = none := by
    intro θ mdl v prev
    simp [fieldScore, hfail]
  constructor
  · intro requested cached fuzzy k v θ mdl hmem hspec
    apply scoreGo_ok_false_of_mem
    exact ⟨(k, v), hmem, by rw [hspec]; exact hfs θ mdl v _⟩
  · intro now ttl params entries fz hne hall
    have hsc : ∀ e ∈ freshFilter now ttl entries,
        (entryScore ⟨now, ttl, params, entries, fz, emb⟩ e).ok = false := by
      intro e _
      obtain ⟨kv, hkv⟩ := List.exists_mem_of_ne_nil params hne
      obtain ⟨θ, mdl, hsp⟩ := hall kv hkv
      show (scoreGo emb (fz.getD []) e.params params 0 true).ok = false
      apply scoreGo_ok_false_of_mem
      exact ⟨kv, hkv, by rw [hsp]; exact hfs θ mdl kv.2 _⟩
    simp only [matchBestEntry]
    rw [bestLoop_all_false _ _ none hsc]
    simp

/-- C3 witness: a one-field similarity request under an always-failing
provider is disqualified at scoring, and a pool whose sole candidate must be
scored through the failing provider yields a plain cache miss. -/
theorem claim_C3_witness :
    (("q", Value.str "bad") ∈ [("q", Value.str "bad")]
      ∧ alookup [("q", FieldSpec.CosineSimilarity (9/10) "m")] "q"
          = some (FieldSpec.CosineSimilarity (9/10) "m")
      ∧ (scoreEntry [("q", Value.str "bad")] [("q", Value.str "good")]
          [("q", FieldSpec.CosineSimilarity (9/10) "m")] embFail).ok = false)
    ∧ matchBestEntry (α := Unit)
        ⟨0, 1000, [("q", Value.str "bad")],
          [⟨[("q", Value.str "good")], Exit.succeed (), 0⟩],
          some [("q", FieldSpec.CosineSimilarity (9/10) "m")], embFail⟩ = none := by
  have hfail : ∀ t m, (embFail t m).toOption = none := fun _ _ => rfl
  have h := claim_C3 (α := Unit) embFail hfail
  refine ⟨⟨by simp, by simp [alookup],
    h.1 _ _ _ "q" (Value.str "bad") (9/10) "m" (by simp) (by simp [alookup])⟩,
    h.2 0 1000 _ _ _ (by simp) ?_⟩
  intro kv hkv
  simp only [List.mem_singleton] at hkv
  subst hkv
  exact ⟨9/10, "m", by simp [alookup]⟩

/-- C7: matchBestEntry considers exactly the fresh entries — those with
now - createdAt ≤ ttl (running it on the pre-filtered list is the same); it
returns "no match" on an empty entry sequence and when every entry is
stale; and an entry exactly at the TTL boundary is included (a usable
boundary entry is returned). -/
theorem claim_C7 {ε α : Type} (args : MatchArgs ε α) :
    (matchBestEntry args = matchBestEntry ⟨args.now, args.ttl, args.params,
        freshFilter args.now args.ttl args.entries, args.fuzzyParams, args.embed⟩)
    ∧ (args.entries = [] → matchBestEntry args = none)
    ∧ ((∀ e ∈ args.entries, args.ttl < args.now - e.createdAt) → matchBestEntry args = none)
    ∧ (∀ e : CacheEntry ε α, args.entries = [e] → args.now - e.createdAt = args.ttl →
        (entryScore args e).ok = true →
        matchBestEntry args = some ⟨e, ⟨if (entryScore args e).exact then CacheHitKind.exact
          else CacheHitKind.fuzzy, (entryScore args e).score⟩⟩) := by
  refine ⟨?_, ?_, ?_, ?_⟩
  · have hff : freshFilter args.now args.ttl (freshFilter args.now args.ttl args.entries)
        = freshFilter args.now args.ttl args.entries := by
      unfold freshFilter
      rw [List.filter_filter]
      simp
    unfold matchBestEntry
    dsimp only
    rw [hff]
    rfl
  · exact fun h => matchBestEntry_nil_entries args h
  · intro hstale
    have hnil : freshFilter args.now args.ttl args.entries = [] := by
      unfold freshFilter
      rw [List.filter_eq_nil_iff]
      intro e he
      simp only [decide_eq_true_eq]
      exact not_le.mpr (hstale e he)
    unfold matchBestEntry
    simp [hnil]
  · intro e hent heq hok
    exact matchBestEntry_single_hit args e hent (le_of_eq heq) hok

/-- C7 witness: a single stale entry (age 100 > ttl 10) yields no match; a
single entry exactly at the TTL boundary (age 10 = ttl 10) is included and
returned. -/
theorem claim_C7_witness :
    ((∀ e ∈ [entryW], (10 : ℚ) < 100 - e.createdAt) ∧
      matchBestEntry ⟨100, 10, [], [entryW], none, embOkNil⟩ = none)
    ∧ ((10 : ℚ) - entryW.createdAt = 10 ∧
      (entryScore ⟨10, 10, [], [entryW], none, embOkNil⟩ entryW).ok = true ∧
      matchBestEntry ⟨10, 10, [], [entryW], none, embOkNil⟩
        = some ⟨entryW, ⟨if (entryScore ⟨10, 10, [], [entryW], none, embOkNil⟩ entryW).exact
            then CacheHitKind.exact else CacheHitKind.fuzzy,
          (entryScore ⟨10, 10, [], [entryW], none, embOkNil⟩ entryW).score⟩⟩) := by
  have hstale : ∀ e ∈ [entryW], (10 : ℚ) < 100 - e.createdAt := by
    intro e he
    simp only [List.mem_singleton] at he
    subst he
    norm_num [entryW]
  have hbd : (10 : ℚ) - entryW.createdAt = 10 := by norm_num [entryW]
  have hok : (entryScore ⟨10, 10, [], [entryW], none, embOkNil⟩ entryW).ok = true := rfl
  exact ⟨⟨hstale, (claim_C7 ⟨100, 10, [], [entryW], none, embOkNil⟩).2.2.1 hstale⟩,
    ⟨hbd, hok, (claim_C7 ⟨10, 10, [], [entryW], none, embOkNil⟩).2.2.2 entryW rfl hbd hok⟩⟩

/-- C10: tie-breaking is first-seen wins. Whenever matchBestEntry returns a
match, the fresh candidate list splits around the winning entry such that
the winner is usable, its reported score is its own score, every earlier
usable candidate scores strictly below it, and every later usable candidate
scores at most it — so of several entries tied at the maximal score the
earliest in input order is returned, a later candidate replacing the running
best only on a strictly greater score. -/
theorem claim_C10 {ε α : Type} (args : MatchArgs ε α) (res : MatchResult ε α)
    (hs : matchBestEntry args = some res) :
    ∃ l1 l2, freshFilter args.now args.ttl args.entries = l1 ++ res.entry :: l2 ∧
      (entryScore args res.entry).ok = true ∧
      res.hitMeta.score = (entryScore args res.entry).score ∧
      (∀ e ∈ l1, (entryScore args e).ok = true →
        (entryScore args e).score < res.hitMeta.score) ∧
      (∀ e ∈ l2, (entryScore args e).ok = true →
        (entryScore args e).score ≤ res.hitMeta.score) := by
  simp only [matchBestEntry] at hs
  by_cases hemp : (freshFilter args.now args.ttl args.entries).isEmpty
  · simp [hemp] at hs
  · rw [if_neg hemp] at hs
    cases hbl : bestLoop (entryScore args) (freshFilter args.now args.ttl args.entries) none with
    | none => rw [hbl] at hs; simp at hs
    | some b =>
      rw [hbl] at hs
      simp only [Option.some.injEq] at hs
      obtain ⟨l1, l2, hdec, hok, hsc, _, hlt, hle⟩ :=
        bestLoop_none_char (entryScore args) _ b hbl
      subst hs
      exact ⟨l1, l2, hdec, hok, hsc, hlt, hle⟩

/-- C10 witness: a concrete lookup that returns a match, instantiating the
first-seen-wins characterization. -/
theorem claim_C10_witness :
    matchBestEntry argsW = some ⟨entryW2, ⟨CacheHitKind.exact, 0 + 1⟩⟩ ∧
    (∃ l1 l2, freshFilter argsW.now argsW.ttl argsW.entries
        = l1 ++ (⟨entryW2, ⟨CacheHitKind.exact, 0 + 1⟩⟩ : MatchResult Unit Unit).entry :: l2 ∧
      (entryScore argsW (⟨entryW2, ⟨CacheHitKind.exact, 0 + 1⟩⟩ : MatchResult Unit Unit).entry).ok
          = true ∧
      (⟨entryW2, ⟨CacheHitKind.exact, 0 + 1⟩⟩ : MatchResult Unit Unit).hitMeta.score
          = (entryScore argsW (⟨entryW2, ⟨CacheHitKind.exact, 0 + 1⟩⟩ : MatchResult Unit Unit).entry).score ∧
      (∀ e ∈ l1, (entryScore argsW e).ok = true →
        (entryScore argsW e).score
          < (⟨entryW2, ⟨CacheHitKind.exact, 0 + 1⟩⟩ : MatchResult Unit Unit).hitMeta.score) ∧
      (∀ e ∈ l2, (entryScore argsW e).ok = true →
        (entryScore argsW e).score
          ≤ (⟨entryW2, ⟨CacheHitKind.exact, 0 + 1⟩⟩ : MatchResult Unit Unit).hitMeta.score)) := by
  have hok : (entryScore argsW entryW2) = ⟨true, 0 + 1, true⟩ := by
    simp [entryScore, argsW, entryW2, scoreEntry, scoreGo, fieldScore, alookup]
  have hfr : freshFilter argsW.now argsW.ttl argsW.entries = [entryW2] := by
    unfold freshFilter argsW
    rw [List.filter_cons, decide_eq_true (by norm_num [entryW2] : (0 : ℚ) - entryW2.createdAt ≤ 1000)]
    simp
  have hs : matchBestEntry argsW = some ⟨entryW2, ⟨CacheHitKind.exact, 0 + 1⟩⟩ := by
    rw [matchBestEntry_single_hit argsW entryW2 rfl (by norm_num [argsW, entryW2]) (by rw [hok])]
    rw [hok]
    rfl
  exact ⟨hs, claim_C10 argsW _ hs⟩

/-- C1: with no fuzzy spec, calling the wrapper twice sequentially with the
same parameter set within the TTL window (starting from a fresh cache)
invokes the underlying function at most once — here exactly once, on the
first call, which stores its outcome; the second call replays that stored
outcome without invoking the function. -/
theorem claim_C1 {ε α : Type} (fn : Params → Exit ε α) (name : String)
    (ttl? : Option ℚ) (emb : EmbedFn ε) (p : Params) (t1 t2 : ℚ)
    (hnd : (p.map Prod.fst).Nodup)
    (httl : ttlInvalid ttl? = false)
    (hwin : t2 - t1 ≤ ttl?.getD DEFAULT_TTL_MILLIS) :
    (withCaching fn ⟨name, none, ttl?⟩ emb p [] t1).invoked = true
    ∧ (withCaching fn ⟨name, none, ttl?⟩ emb p [] t1).result = fn p
    ∧ (withCaching fn ⟨name, none, ttl?⟩ emb p
        (withCaching fn ⟨name, none, ttl?⟩ emb p [] t1).store t2).invoked = false
    ∧ (withCaching fn ⟨name, none, ttl?⟩ emb p
        (withCaching fn ⟨name, none, ttl?⟩ emb p [] t1).store t2).result = fn p := by
  have h1 := withCaching_miss_empty fn name ttl? emb p t1 httl
  have hget : getAll [(name, [(⟨p, fn p, t1⟩ : CacheEntry ε α)])] name
      = [⟨p, fn p, t1⟩] := by
    simp [getAll, alookup]
  have h2 := withCaching_hit_self fn name ttl? emb p ⟨p, fn p, t1⟩
    [(name, [⟨p, fn p, t1⟩])] t2 hnd httl hget rfl hwin
  refine ⟨?_, ?_, ?_, ?_⟩ <;> simp [h1, h2]

/-- C1 witness: a concrete two-call sequence with identical params on a
fresh cache — first call invokes and stores, second call replays without
invoking. -/
theorem claim_C1_witness :
    (([("x", Value.num 5)].map Prod.fst).Nodup
      ∧ ttlInvalid none = false
      ∧ (10 : ℚ) - 0 ≤ (none : Option ℚ).getD DEFAULT_TTL_MILLIS)
    ∧ (withCaching (ε := Unit) (α := ℚ) (fun _ => .succeed 10) ⟨"c", none, none⟩
        embOkNil [("x", Value.num 5)] [] 0).invoked = true
    ∧ (withCaching (ε := Unit) (α := ℚ) (fun _ => .succeed 10) ⟨"c", none, none⟩
        embOkNil [("x", Value.num 5)]
        (withCaching (ε := Unit) (α := ℚ) (fun _ => .succeed 10) ⟨"c", none, none⟩
          embOkNil [("x", Value.num 5)] [] 0).store 10).invoked = false
    ∧ (withCaching (ε := Unit) (α := ℚ) (fun _ => .succeed 10) ⟨"c", none, none⟩
        embOkNil [("x", Value.num 5)]
        (withCaching (ε := Unit) (α := ℚ) (fun _ => .succeed 10) ⟨"c", none, none⟩
          embOkNil [("x", Value.num 5)] [] 0).store 10).result = Exit.succeed 10 := by
  have hnd : ([("x", Value.num 5)].map Prod.fst).Nodup := by simp
  have httl : ttlInvalid none = false := rfl
  have hwin : (10 : ℚ) - 0 ≤ (none : Option ℚ).getD DEFAULT_TTL_MILLIS := by
    norm_num [DEFAULT_TTL_MILLIS]
  have h := claim_C1 (ε := Unit) (α := ℚ) (fun _ => .succeed 10) "c" none embOkNil
    [("x", Value.num 5)] 0 10 hnd httl hwin
  exact ⟨⟨hnd, httl, hwin⟩, h.1, h.2.2.1, h.2.2.2.trans rfl⟩

/-- C2: wrapping a function that fails for input X (with no fuzzy spec) and
calling the wrapper repeatedly, sequentially, with X within the TTL window
results in exactly one underlying invocation; every call — the first and
every replay — fails with the same stored failure cause, and only the one
entry capturing that failure is stored. -/
theorem claim_C2 {ε α : Type} (fn : Params → Exit ε α) (name : String)
    (ttl? : Option ℚ) (emb : EmbedFn ε) (X : Params) (c : Cause ε)
    (t1 : ℚ) (ts : List ℚ)
    (hnd : (X.map Prod.fst).Nodup)
    (httl : ttlInvalid ttl? = false)
    (hfn : fn X = .failCause c)
    (hts : ∀ t ∈ ts, t - t1 ≤ ttl?.getD DEFAULT_TTL_MILLIS) :
    callSeq (withCaching fn ⟨name, none, ttl?⟩ emb) X (t1 :: ts) []
      = ((t1 :: ts).map (fun _ => Exit.failCause c),
         [(name, [⟨X, Exit.failCause c, t1⟩])], 1) := by
  have h1 := withCaching_miss_empty fn name ttl? emb X t1 httl
  rw [hfn] at h1
  have hget : getAll [(name, [(⟨X, Exit.failCause c, t1⟩ : CacheEntry ε α)])] name
      = [⟨X, Exit.failCause c, t1⟩] := by
    simp [getAll, alookup]
  have haux : ∀ ts' : List ℚ, (∀ t ∈ ts', t - t1 ≤ ttl?.getD DEFAULT_TTL_MILLIS) →
      callSeq (withCaching fn ⟨name, none, ttl?⟩ emb) X ts'
          [(name, [⟨X, Exit.failCause c, t1⟩])]
        = (ts'.map (fun _ => Exit.failCause c),
           [(name, [⟨X, Exit.failCause c, t1⟩])], 0) := by
    intro ts'
    induction ts' with
    | nil => intro _; rfl
    | cons t rest ih =>
      intro hb
      have hcall := withCaching_hit_self fn name ttl? emb X ⟨X, Exit.failCause c, t1⟩
        [(name, [⟨X, Exit.failCause c, t1⟩])] t hnd httl hget rfl
        (hb t (List.mem_cons_self _ _))
      simp only [callSeq, hcall]
      rw [ih (fun u hu => hb u (List.mem_cons_of_mem _ hu))]
      simp
  simp only [callSeq, h1]
  rw [haux ts hts]
  simp

/-- C2 witness: a failing function called three times on a fresh cache —
one underlying invocation, every call failing with the same cause. -/
theorem claim_C2_witness :
    (([("x", Value.num 1)].map Prod.fst).Nodup
      ∧ ttlInvalid (some 1000) = false
      ∧ (fun _ : Params => Exit.failCause (ε := String) (α := Unit) (.fail "boom"))
          [("x", Value.num 1)] = .failCause (.fail "boom")
      ∧ (∀ t ∈ [(5 : ℚ), 10], t - 0 ≤ (some (1000 : ℚ)).getD DEFAULT_TTL_MILLIS))
    ∧ callSeq (withCaching (ε := String) (α := Unit)
          (fun _ => .failCause (.fail "boom")) ⟨"c", none, some 1000⟩
          (fun _ _ => Except.ok []) ) [("x", Value.num 1)] (0 :: [5, 10]) []
      = ((0 :: [(5 : ℚ), 10]).map (fun _ => Exit.failCause (.fail "boom")),
         [("c", [⟨[("x", Value.num 1)], Exit.failCause (.fail "boom"), 0⟩])], 1) := by
  have hnd : ([("x", Value.num 1)].map Prod.fst).Nodup := by simp
  have httl : ttlInvalid (some (1000 : ℚ)) = false := by norm_num [ttlInvalid]
  have hts : ∀ t ∈ [(5 : ℚ), 10], t - 0 ≤ (some (1000 : ℚ)).getD DEFAULT_TTL_MILLIS := by
    intro t ht
    rcases List.mem_cons.mp ht with rfl | ht
    · norm_num
    · rcases List.mem_cons.mp ht with rfl | ht
      · norm_num
      · simp at ht
  exact ⟨⟨hnd, httl, rfl, hts⟩,
    claim_C2 (ε := String) (α := Unit) (fun _ => .failCause (.fail "boom")) "c"
      (some 1000) (fun _ _ => Except.ok []) [("x", Value.num 1)] (.fail "boom")
      0 [5, 10] hnd httl rfl hts⟩

end FuzzyCache
